/-
Verification of the transcode-example repository's core codecs against its
natural-language specification.

Shallow embedding conventions:
 - Bytes and characters are modelled as `Nat` (with explicit `< 256` bounds
   where a claim needs them); files and strings are `List Nat`.
 - The XChaCha20-Poly1305 cipher (an external crate) is abstracted as a
   `StreamCipher`: a keyed pair of encrypt/decrypt functions.  The properties
   a real AEAD provides (ciphertext length = plaintext length + 16, decryption
   inverts encryption, decrypted length is ciphertext length - 16) appear as
   explicit hypotheses of the theorems that need them.  `mockCipher` is a
   concrete instance used for witnesses.
 - Loops that consume at least one byte per iteration are written with an
   explicit fuel argument (structurally recursive, hence kernel-reducible);
   the top-level wrappers pass a fuel that provably suffices, and the
   fuel-exhausted branch is unreachable there.
 - Rust panics (out-of-range slice, `unwrap` on `Err`, usize underflow) are
   modelled as `none` / explicit error values.
-/
import Mathlib

set_option maxHeartbeats 1000000

namespace Transcode

/-! ## Streaming chunk cipher codec (src/transcode_server/src/encrypt_file.rs) -/

/-- Abstraction of a keyed AEAD cipher (the `chacha20poly1305` crate's
`XChaCha20Poly1305` instance): `enc nonce plaintext` is the ciphertext with
appended tag, `dec nonce ciphertext` authenticates and decrypts. -/
structure StreamCipher where
  enc : List Nat → List Nat → List Nat
  dec : List Nat → List Nat → Option (List Nat)

/-- The 24-byte nonce of chunk `i`: the 4 little-endian bytes of the `u32`
chunk index followed by 20 zero bytes (`encrypt_file.rs` lines 51-58). -/
def nonce24 (i : Nat) : List Nat :=
  [i % 256, i / 256 % 256, i / 65536 % 256, i / 16777216 % 256] ++ List.replicate 20 0

/-- One iteration of the encryption loop, instrumented: the chunk index, the
plaintext slice passed to `cipher.encrypt`, and the ciphertext written to the
output file. -/
structure EncChunk where
  index : Nat
  plaintext : List Nat
  ciphertext : List Nat
  deriving DecidableEq

/-- The loop of `encrypt_file_xchacha20_internal`.  `buffer` is the 262144-byte
input buffer (its bytes beyond the current read keep their previous content);
`input` is the remaining unread file.  `none` models the panic of the slice
`&buffer[..length]` when `length > 262144`, and (unreachably for
`fuel ≥ input.length`) fuel exhaustion. -/
def encLoop (C : StreamCipher) (padding : Nat) :
    Nat → List Nat → Nat → List Nat → Option (List EncChunk)
  | fuel, buffer, chunkIndex, input =>
    if input.length = 0 then some []
    else
      match fuel with
      | 0 => none
      | fuel + 1 =>
        let count := min input.length 262144
        let buffer2 := input.take count ++ buffer.drop count
        let length := if count < 262144 then count + padding else count
        if length ≤ 262144 then
          (encLoop C padding fuel buffer2 (chunkIndex + 1) (input.drop count)).map
            (fun rest =>
              ⟨chunkIndex, buffer2.take length,
               C.enc (nonce24 chunkIndex) (buffer2.take length)⟩ :: rest)
        else none

/-- `encrypt_file_xchacha20_internal`: reads `reader` in 262144-byte chunks,
the input buffer starting zero-initialised (`[0u8; 262144]`). -/
def encrypt_file_xchacha20_internal (C : StreamCipher) (reader : List Nat)
    (padding : Nat) : Option (List EncChunk) :=
  encLoop C padding reader.length (List.replicate 262144 0) 0 reader

/-- The byte stream written to the encrypted output file. -/
def encryptedStream (C : StreamCipher) (reader : List Nat) (padding : Nat) :
    Option (List Nat) :=
  (encrypt_file_xchacha20_internal C reader padding).map
    (fun cs => (cs.map EncChunk.ciphertext).flatten)

/-- The plaintext passed to the cipher for the last chunk, when encryption
succeeds and there is at least one chunk. -/
def lastChunkPlaintext (C : StreamCipher) (reader : List Nat) (padding : Nat) :
    Option (List Nat) :=
  (encrypt_file_xchacha20_internal C reader padding).bind
    (fun cs => cs.getLast?.map EncChunk.plaintext)

/-- One iteration of the decryption loop, instrumented: chunk index, the
number of ciphertext bytes read (`count`), the decrypted plaintext, and the
slice of it written to the output file. -/
structure DecChunk where
  index : Nat
  count : Nat
  plaintext : List Nat
  written : List Nat
  deriving DecidableEq

/-- How a decryption run aborts.  `authFail i`: `cipher.decrypt` returned an
error for chunk `i` and the `.unwrap()` panics (nothing of chunk `i` is
written).  `sliceFail i`: the slice `&plaintext[..count - 16 - padding]`
panics at chunk `i` (usize underflow of `count - 16 - padding`, or an index
past the plaintext's end).  `outOfFuel` is a modelling artifact, unreachable
when the fuel is at least the input length. -/
inductive DecErr where
  | authFail (i : Nat)
  | sliceFail (i : Nat)
  | outOfFuel
  deriving DecidableEq

/-- The loop of `decrypt_file_xchacha20_internal`: reads up to 262160-byte
ciphertext chunks, decrypts each with the rederived nonce, truncates the chunk
whose index is `lastChunkIndex` by `count - 16 - padding`, writes all others
unmodified.  Returns the per-chunk log and the abort reason, if any. -/
def decLoop (C : StreamCipher) (padding lastChunkIndex : Nat) :
    Nat → Nat → List Nat → List DecChunk × Option DecErr
  | fuel, chunkIndex, input =>
    if input.length = 0 then ([], none)
    else
      match fuel with
      | 0 => ([], some DecErr.outOfFuel)
      | fuel + 1 =>
        let count := min input.length 262160
        match C.dec (nonce24 chunkIndex) (input.take count) with
        | none => ([], some (DecErr.authFail chunkIndex))
        | some pt =>
          if chunkIndex = lastChunkIndex then
            if 16 + padding ≤ count ∧ count - 16 - padding ≤ pt.length then
              let res := decLoop C padding lastChunkIndex fuel (chunkIndex + 1)
                  (input.drop count)
              (⟨chunkIndex, count, pt, pt.take (count - 16 - padding)⟩ :: res.1, res.2)
            else ([], some (DecErr.sliceFail chunkIndex))
          else
            let res := decLoop C padding lastChunkIndex fuel (chunkIndex + 1)
                (input.drop count)
            (⟨chunkIndex, count, pt, pt⟩ :: res.1, res.2)

/-- `decrypt_file_xchacha20_internal`. -/
def decrypt_file_xchacha20_internal (C : StreamCipher) (reader : List Nat)
    (padding lastChunkIndex : Nat) : List DecChunk × Option DecErr :=
  decLoop C padding lastChunkIndex reader.length 0 reader

/-- The byte stream written to the decrypted output file. -/
def decryptedOutput (C : StreamCipher) (reader : List Nat)
    (padding lastChunkIndex : Nat) : List Nat :=
  (((decrypt_file_xchacha20_internal C reader padding lastChunkIndex).1).map
    DecChunk.written).flatten

/-- A concrete `StreamCipher` used for witnesses: the "tag" is 16 zero bytes,
checked on decryption. -/
def mockCipher : StreamCipher where
  enc := fun _ p => p ++ List.replicate 16 0
  dec := fun _ c =>
    if 16 ≤ c.length ∧ c.drop (c.length - 16) = List.replicate 16 0 then
      some (c.take (c.length - 16))
    else none

/-! ## Base64 transport encoding (src/transcode_server/src/utils.rs, the
`base64` crate's standard and URL-safe engines) -/

/-- The standard base64 alphabet: index `i < 64` to ASCII code. -/
def b64EncChar (i : Nat) : Nat :=
  if i < 26 then 65 + i
  else if i < 52 then 97 + (i - 26)
  else if i < 62 then 48 + (i - 52)
  else if i = 62 then 43
  else 47

/-- Standard-alphabet digit decoding (rejects every non-alphabet byte). -/
def b64DecChar (c : Nat) : Option Nat :=
  if 65 ≤ c ∧ c ≤ 90 then some (c - 65)
  else if 97 ≤ c ∧ c ≤ 122 then some (c - 97 + 26)
  else if 48 ≤ c ∧ c ≤ 57 then some (c - 48 + 52)
  else if c = 43 then some 62
  else if c = 47 then some 63
  else none

/-- URL-safe-alphabet digit decoding (`-` is 62, `_` is 63; `+` and `/` are
rejected). -/
def urlDecChar (c : Nat) : Option Nat :=
  if 65 ≤ c ∧ c ≤ 90 then some (c - 65)
  else if 97 ≤ c ∧ c ≤ 122 then some (c - 97 + 26)
  else if 48 ≤ c ∧ c ≤ 57 then some (c - 48 + 52)
  else if c = 45 then some 62
  else if c = 95 then some 63
  else none

/-- Unpadded base64 encoding over the standard alphabet
(`general_purpose::STANDARD_NO_PAD.encode`). -/
def b64EncodeNoPad : List Nat → List Nat
  | [] => []
  | [x] => [b64EncChar (x / 4), b64EncChar (x % 4 * 16)]
  | [x, y] => [b64EncChar (x / 4), b64EncChar (x % 4 * 16 + y / 16), b64EncChar (y % 16 * 4)]
  | x :: y :: z :: rest =>
    b64EncChar (x / 4) :: b64EncChar (x % 4 * 16 + y / 16) ::
      b64EncChar (y % 16 * 4 + z / 64) :: b64EncChar (z % 64) :: b64EncodeNoPad rest

/-- Padded base64 encoding over the standard alphabet (`base64::encode`,
used by the tus client's metadata builder); 61 is the ASCII code of `=`. -/
def b64EncodePad : List Nat → List Nat
  | [] => []
  | [x] => [b64EncChar (x / 4), b64EncChar (x % 4 * 16), 61, 61]
  | [x, y] => [b64EncChar (x / 4), b64EncChar (x % 4 * 16 + y / 16), b64EncChar (y % 16 * 4), 61]
  | x :: y :: z :: rest =>
    b64EncChar (x / 4) :: b64EncChar (x % 4 * 16 + y / 16) ::
      b64EncChar (y % 16 * 4 + z / 64) :: b64EncChar (z % 64) :: b64EncodePad rest

/-- Unpadded base64 decoding, parametrised by the per-digit decoder `d`
(standard or URL-safe alphabet).  Rejects a trailing group of one digit and
non-zero trailing bits, as the `base64` crate's default configs do. -/
def b64DecodeCore (d : Nat → Option Nat) : List Nat → Option (List Nat)
  | [] => some []
  | [_] => none
  | [a, b] =>
    match d a, d b with
    | some x, some y => if y % 16 = 0 then some [x * 4 + y / 16] else none
    | _, _ => none
  | [a, b, c] =>
    match d a, d b, d c with
    | some x, some y, some z =>
      if z % 4 = 0 then some [x * 4 + y / 16, y % 16 * 16 + z / 4] else none
    | _, _, _ => none
  | a :: b :: c :: e :: rest =>
    match d a, d b, d c, d e with
    | some x, some y, some z, some w =>
      (b64DecodeCore d rest).map
        (fun tail => (x * 4 + y / 16) :: (y % 16 * 16 + z / 4) :: (z % 4 * 64 + w) :: tail)
    | _, _, _, _ => none

/-- The character replacement of `bytes_to_base64url`: `+` (43) becomes `-`
(45) and `/` (47) becomes `_` (95). -/
def urlReplace (c : Nat) : Nat := if c = 43 then 45 else if c = 47 then 95 else c

/-- `utils.rs bytes_to_base64url`: standard no-pad encode, then the URL-safe
character replacement. -/
def bytes_to_base64url (b : List Nat) : List Nat := (b64EncodeNoPad b).map urlReplace

/-- The character replacement of `base64url_to_bytes`: `-` (45) back to `+`
(43) and `_` (95) back to `/` (47). -/
def fromUrlChar (c : Nat) : Nat := if c = 45 then 43 else if c = 95 then 47 else c

/-- `utils.rs base64url_to_bytes`: undo the URL-safe replacement, strip `=`
(61), then standard no-pad decode; `none` models the `.unwrap()` panic on a
malformed transport encoding. -/
def base64url_to_bytes (s : List Nat) : Option (List Nat) :=
  b64DecodeCore b64DecChar ((s.map fromUrlChar).filter (fun c => c ≠ 61))

/-! ## CID codec (src/transcode_server/src/encrypted_cid.rs, server.rs,
s5.rs, utils.rs) -/

/-- The big-endian bytes of a `u32` (`padding.to_be_bytes()`). -/
def u32be (n : Nat) : List Nat :=
  [n / 16777216 % 256, n / 65536 % 256, n / 256 % 256, n % 256]

/-- `encrypted_cid.rs create_encrypted_cid`: type, algorithm and chunk-size
bytes, then hash, key, big-endian padding and the inner plain CID. -/
def create_encrypted_cid (cid_type_encrypted encryption_algorithm
    chunk_size_as_power_of_2 : Nat) (encrypted_blob_hash encryption_key : List Nat)
    (padding : Nat) (original_cid : List Nat) : List Nat :=
  cid_type_encrypted :: encryption_algorithm :: chunk_size_as_power_of_2 ::
    (encrypted_blob_hash ++ encryption_key ++ u32be padding ++ original_cid)

/-- Index of the last occurrence of `.` (46), as `encrypted_cid.rfind(".")`. -/
def rfind46 : List Nat → Option Nat
  | [] => none
  | c :: rest =>
    match rfind46 rest with
    | some k => some (k + 1)
    | none => if c = 46 then some 0 else none

/-- `server.rs get_key_from_encrypted_cid`: strip the textual extension after
the last `.`, strip the leading version character, base64url-decode, slice
bytes `[36, 68)` and re-encode them.  `none` models the panics (decode
`.unwrap()`, out-of-range slice). -/
def get_key_from_encrypted_cid (encrypted_cid : List Nat) : Option (List Nat) :=
  let cid_without_extension :=
    match rfind46 encrypted_cid with
    | some idx => encrypted_cid.take idx
    | none => encrypted_cid
  if cid_without_extension.length < 1 then none
  else
    match base64url_to_bytes (cid_without_extension.drop 1) with
    | none => none
    | some cid_bytes =>
      if 68 ≤ cid_bytes.length then
        some (bytes_to_base64url ((cid_bytes.drop 36).take 32))
      else none

/-- `server.rs get_base64_url_encrypted_blob_hash`: strip the leading version
character (no extension handling here), base64url-decode, slice bytes
`[3, 36)` and re-encode them. -/
def get_base64_url_encrypted_blob_hash (encrypted_cid : List Nat) : Option (List Nat) :=
  if encrypted_cid.length < 1 then none
  else
    match base64url_to_bytes (encrypted_cid.drop 1) with
    | none => none
    | some cid_bytes =>
      if 36 ≤ cid_bytes.length then
        some (bytes_to_base64url ((cid_bytes.drop 3).take 33))
      else none

/-- The little-endian bytes of a `u64` (`file_size.to_le_bytes()`). -/
def u64le (n : Nat) : List Nat :=
  [n % 256, n / 256 % 256, n / 65536 % 256, n / 16777216 % 256,
   n / 4294967296 % 256, n / 1099511627776 % 256, n / 281474976710656 % 256,
   n / 72057594037927936 % 256]

/-- The trailing-zero-stripping loop of `hash_bytes_to_cid` / `hash_to_cid`. -/
def trimTrailingZeros (l : List Nat) : List Nat :=
  (l.reverse.dropWhile (fun b => b == 0)).reverse

/-- Value of a little-endian byte list (used to state that trimming loses no
information). -/
def fromLEBytes : List Nat → Nat
  | [] => 0
  | b :: rest => b + 256 * fromLEBytes rest

/-- `utils.rs hash_bytes_to_cid`: prepend `0x1f` then `0x26`, append the
little-endian file size with trailing zero bytes stripped. -/
def hash_bytes_to_cid (hash : List Nat) (file_size : Nat) : List Nat :=
  38 :: 31 :: (hash ++ trimTrailingZeros (u64le file_size))

/-- `s5.rs hash_to_cid`: URL-safe no-pad decode of the textual hash
(`none` models the `.unwrap()` panic), prepend `0x26`, append the trimmed
little-endian size. -/
def hash_to_cid (hash : List Nat) (file_size : Nat) : Option (List Nat) :=
  match b64DecodeCore urlDecChar hash with
  | none => none
  | some cid => some (38 :: (cid ++ trimTrailingZeros (u64le file_size)))

/-! ## tus upload client (src/tus_client/src/lib.rs) -/

/-- The `.join(",")` of the metadata pair strings. -/
def joinComma : List (List Nat) → List Nat
  | [] => []
  | [x] => x
  | x :: rest => x ++ 44 :: joinComma rest

/-- The `Upload-Metadata` header value built by `create_with_metadata`:
`"{key} {base64::encode(value)}"` for each pair, joined with `,` (44); 32 is
the ASCII code of the space.  The metadata map is modelled as an association
list of byte strings. -/
def create_with_metadata_header (metadata : List (List Nat × List Nat)) : List Nat :=
  joinComma (metadata.map (fun kv => kv.1 ++ 32 :: b64EncodePad kv.2))

/-- `base64::decode`: standard alphabet with up to two `=` padding characters
at the end.  Modelled from the `base64` crate; the claims below rely only on
its rejection of non-alphabet bytes such as the space. -/
def decodeStdPadded (l : List Nat) : Option (List Nat) :=
  if l.length - ((l.reverse.dropWhile (fun c => c == 61)).reverse).length ≤ 2 then
    b64DecodeCore b64DecChar ((l.reverse.dropWhile (fun c => c == 61)).reverse)
  else none

/-- The metadata parse of `get_info`: base64-decode the whole header value,
read it as a string (the repository's metadata is ASCII; `String::from_utf8`
is modelled by the `< 128` guard), split on `;` (59), and split each piece at
its first `:` (58) into key and value.  `none` models the `.ok()`-chained
failures, after which `get_info` reports no metadata. -/
def get_info_parse_metadata (header : List Nat) : Option (List (List Nat × List Nat)) :=
  match decodeStdPadded header with
  | none => none
  | some decoded =>
    if decoded.all (fun b => b < 128) then
      some ((decoded.splitOn 59).map (fun key_val =>
        (key_val.takeWhile (fun c => c ≠ 58),
         (key_val.dropWhile (fun c => c ≠ 58)).drop 1)))
    else none

/-- The errors of the tus client's `Error` enum that `upload_with_chunk_size`
can produce, plus the unreachable fuel-exhaustion artifact. -/
inductive TusError where
  | unexpectedStatusCode (code : Nat)
  | notFoundError
  | missingHeader
  | parsingError
  | unequalSizeError
  | fileReadError
  | wrongUploadOffsetError
  | outOfFuel
  deriving DecidableEq

/-- A `PATCH` response as `upload_with_chunk_size` observes it: the status
code and the `Upload-Offset` header (`none`: header absent, `some none`:
present but not a number, `some (some n)`: parses to `n`). -/
structure PatchResponse where
  status : Nat
  uploadOffset : Option (Option Nat)

/-- The environment of one `upload_with_chunk_size` call: the chunk size, the
local file's length, `get_info`'s reported offset and total size, and the
server's response to the `k`-th `PATCH` request. -/
structure UploadEnv where
  chunkSize : Nat
  fileLen : Nat
  bytesUploaded : Nat
  totalSize : Option Nat
  responses : Nat → PatchResponse

/-- The upload loop: `pos` is the reader's position (it advances by the bytes
read, regardless of the server-reported offset), `reqs` the number of `PATCH`
requests sent so far.  A read at or past end-of-file returns zero bytes and
the zero-read branch fails with `FileReadError` before sending anything.
Returns the result and the total number of `PATCH` requests sent. -/
def uploadLoop (env : UploadEnv) : Nat → Nat → Nat → Except TusError Unit × Nat
  | fuel, pos, reqs =>
    if min env.chunkSize (env.fileLen - pos) = 0 then
      (Except.error TusError.fileReadError, reqs)
    else
      match fuel with
      | 0 => (Except.error TusError.outOfFuel, reqs)
      | fuel + 1 =>
        if (env.responses reqs).status = 409 then
          (Except.error TusError.wrongUploadOffsetError, reqs + 1)
        else if (env.responses reqs).status = 404 then
          (Except.error TusError.notFoundError, reqs + 1)
        else if (env.responses reqs).status ≠ 204 then
          (Except.error (TusError.unexpectedStatusCode (env.responses reqs).status), reqs + 1)
        else
          match (env.responses reqs).uploadOffset with
          | none => (Except.error TusError.missingHeader, reqs + 1)
          | some none => (Except.error TusError.parsingError, reqs + 1)
          | some (some progress) =>
            if env.fileLen ≤ progress then (Except.ok (), reqs + 1)
            else uploadLoop env fuel (pos + min env.chunkSize (env.fileLen - pos)) (reqs + 1)

/-- `upload_with_chunk_size`: the size-equality check against `get_info`'s
total size, then the chunked upload loop seeked to the reported offset.  Each
successful iteration advances the reader by at least one byte, so
`fileLen + 1` fuel always suffices. -/
def upload_with_chunk_size (env : UploadEnv) : Except TusError Unit × Nat :=
  match env.totalSize with
  | some total_size =>
    if env.fileLen ≠ total_size then (Except.error TusError.unequalSizeError, 0)
    else uploadLoop env (env.fileLen + 1) env.bytesUploaded 0
  | none => uploadLoop env (env.fileLen + 1) env.bytesUploaded 0

/-! ## Progress tracker (src/transcode_server/src/shared.rs) -/

/-- The global progress map, task id to per-format optional percentages.
Task ids are strings in the source; only their equality is used, so they are
modelled as `Nat`.  The `HashMap` is modelled as an association list. -/
def ProgressMap : Type := List (Nat × List (Option Int))

/-- Association-list read (`progress_map.get(task_id)`). -/
def mapGet : ProgressMap → Nat → Option (List (Option Int))
  | [], _ => none
  | (k, v) :: rest, t => if k = t then some v else mapGet rest t

/-- Association-list write (replaces the binding, or appends a new one). -/
def mapSet : ProgressMap → Nat → List (Option Int) → ProgressMap
  | [], k, v => [(k, v)]
  | (k0, v0) :: rest, k, v =>
    if k0 = k then (k, v) :: rest else (k0, v0) :: mapSet rest k v

/-- `shared.rs update_progress`: fetch-or-create the task's list, resize it
with `None` up to `format_index + 1` if too short, set the format's entry. -/
def update_progress (m : ProgressMap) (task_id : Nat) (format_index : Nat)
    (progress : Int) : ProgressMap :=
  let progress_list := (mapGet m task_id).getD []
  let grown :=
    if progress_list.length ≤ format_index then
      progress_list ++ List.replicate (format_index + 1 - progress_list.length) none
    else progress_list
  mapSet m task_id (grown.set format_index (some progress))

/-- `shared.rs calculate_overall_progress`: the sum of the reported entries
divided (i32 division truncates toward zero, as `Int.tdiv`) by their count;
0 when the task is unknown or has no reported entry. -/
def calculate_overall_progress (m : ProgressMap) (task_id : Nat) : Int :=
  match mapGet m task_id with
  | some progress_list =>
    if 0 < (progress_list.filterMap id).length then
      Int.tdiv (progress_list.filterMap id).sum ((progress_list.filterMap id).length : Int)
    else 0
  | none => 0

/-! ## Lemmas: the encryption and decryption loops -/

theorem encLoop_nil (C : StreamCipher) (P fuel : Nat) (buffer : List Nat) (i : Nat)
    (input : List Nat) (h : input.length = 0) :
    encLoop C P fuel buffer i input = some [] := by
  rw [encLoop.eq_def]
  dsimp only
  rw [if_pos h]

theorem encLoop_full (C : StreamCipher) (P fuel : Nat) (buffer : List Nat) (i : Nat)
    (input : List Nat) (hbig : 262144 ≤ input.length) (hbuf : buffer.length = 262144) :
    encLoop C P (fuel + 1) buffer i input =
      (encLoop C P fuel (input.take 262144) (i + 1) (input.drop 262144)).map
        (fun rest =>
          ⟨i, input.take 262144, C.enc (nonce24 i) (input.take 262144)⟩ :: rest) := by
  have hcount : min input.length 262144 = 262144 := by omega
  have hdropb : buffer.drop 262144 = [] := by
    apply List.drop_eq_nil_of_le; omega
  have htk : (input.take 262144 ++ buffer.drop 262144) = input.take 262144 := by
    rw [hdropb, List.append_nil]
  have hlen : (input.take 262144).length = 262144 := by
    simp [List.length_take]; omega
  rw [encLoop.eq_def]
  dsimp only
  rw [if_neg (by omega)]
  simp only [hcount, htk]
  rw [if_neg (lt_irrefl 262144), if_pos (le_refl 262144)]
  rw [List.take_of_length_le (le_of_eq hlen)]

theorem encLoop_last (C : StreamCipher) (P fuel : Nat) (buffer : List Nat) (i : Nat)
    (input : List Nat) (h0 : 0 < input.length) (hsmall : input.length < 262144)
    (hP : input.length + P ≤ 262144) :
    encLoop C P (fuel + 1) buffer i input =
      some [⟨i, input ++ (buffer.drop input.length).take P,
            C.enc (nonce24 i) (input ++ (buffer.drop input.length).take P)⟩] := by
  have hcount : min input.length 262144 = input.length := by omega
  rw [encLoop.eq_def]
  dsimp only
  rw [if_neg (by omega)]
  simp only [hcount, List.take_length]
  rw [if_pos hsmall, if_pos hP]
  rw [encLoop_nil _ _ _ _ _ _ (by simp [List.length_drop])]
  have hsplit : (input ++ buffer.drop input.length).take (input.length + P)
      = input ++ (buffer.drop input.length).take P := by
    rw [List.take_append]
  rw [hsplit]
  rfl

theorem decLoop_nil (C : StreamCipher) (P L fuel i : Nat) (input : List Nat)
    (h : input.length = 0) :
    decLoop C P L fuel i input = ([], none) := by
  rw [decLoop.eq_def]
  dsimp only
  rw [if_pos h]

theorem decLoop_authfail (C : StreamCipher) (P L fuel i : Nat) (input : List Nat)
    (h0 : 0 < input.length)
    (hfail : C.dec (nonce24 i) (input.take (min input.length 262160)) = none) :
    decLoop C P L (fuel + 1) i input = ([], some (DecErr.authFail i)) := by
  rw [decLoop.eq_def]
  dsimp only
  rw [if_neg (by omega)]
  simp only [hfail]

theorem decLoop_notlast (C : StreamCipher) (P L fuel i : Nat) (input : List Nat)
    (pt : List Nat) (h0 : 0 < input.length) (hne : i ≠ L)
    (hdec : C.dec (nonce24 i) (input.take (min input.length 262160)) = some pt) :
    decLoop C P L (fuel + 1) i input =
      (⟨i, min input.length 262160, pt, pt⟩ ::
         (decLoop C P L fuel (i + 1) (input.drop (min input.length 262160))).1,
       (decLoop C P L fuel (i + 1) (input.drop (min input.length 262160))).2) := by
  rw [decLoop.eq_def]
  dsimp only
  rw [if_neg (by omega)]
  simp only [hdec]
  rw [if_neg hne]

theorem decLoop_last (C : StreamCipher) (P L fuel i : Nat) (input : List Nat)
    (pt : List Nat) (h0 : 0 < input.length) (heq : i = L)
    (hdec : C.dec (nonce24 i) (input.take (min input.length 262160)) = some pt)
    (hg1 : 16 + P ≤ min input.length 262160)
    (hg2 : min input.length 262160 - 16 - P ≤ pt.length) :
    decLoop C P L (fuel + 1) i input =
      (⟨i, min input.length 262160, pt, pt.take (min input.length 262160 - 16 - P)⟩ ::
         (decLoop C P L fuel (i + 1) (input.drop (min input.length 262160))).1,
       (decLoop C P L fuel (i + 1) (input.drop (min input.length 262160))).2) := by
  rw [decLoop.eq_def]
  dsimp only
  rw [if_neg (by omega)]
  simp only [hdec]
  rw [if_pos heq, if_pos ⟨hg1, hg2⟩]

theorem decLoop_slicefail (C : StreamCipher) (P L fuel i : Nat) (input pt : List Nat)
    (h0 : 0 < input.length) (heq : i = L)
    (hdec : C.dec (nonce24 i) (input.take (min input.length 262160)) = some pt)
    (hg : ¬(16 + P ≤ min input.length 262160 ∧
            min input.length 262160 - 16 - P ≤ pt.length)) :
    decLoop C P L (fuel + 1) i input = ([], some (DecErr.sliceFail i)) := by
  rw [decLoop.eq_def]
  dsimp only
  rw [if_neg (by omega)]
  simp only [hdec]
  rw [if_pos heq, if_neg hg]

theorem decLoop_fuelzero (C : StreamCipher) (P L i : Nat) (input : List Nat) :
    (decLoop C P L 0 i input).1 = [] := by
  rw [decLoop.eq_def]
  dsimp only
  by_cases h : input.length = 0
  · rw [if_pos h]
  · rw [if_neg h]

theorem getLast?_cons_of_getLast? {α : Type} (a x : α) (l : List α)
    (h : l.getLast? = some x) : (a :: l).getLast? = some x := by
  cases l with
  | nil => simp at h
  | cons b t => rw [List.getLast?_cons_cons]; exact h

/-- Shape of a successful encryption with a short (padded) final chunk: the
final chunk's index is `i + ⌊n / 262144⌋` and its plaintext is the final read
followed by `P` bytes of buffer residue (the previous full chunk's bytes, or
the initial buffer contents when the file is shorter than one chunk). -/
theorem encLoop_lastChunk (C : StreamCipher) (P : Nat) :
    ∀ (fuel : Nat) (X buffer : List Nat) (i : Nat),
    X.length ≤ fuel → buffer.length = 262144 →
    0 < X.length % 262144 → X.length % 262144 + P ≤ 262144 →
    ∃ chunks lastPt,
      encLoop C P fuel buffer i X = some chunks ∧
      chunks.getLast? = some ⟨i + X.length / 262144, lastPt,
        C.enc (nonce24 (i + X.length / 262144)) lastPt⟩ ∧
      lastPt = X.drop (262144 * (X.length / 262144)) ++
        ((if X.length / 262144 = 0 then buffer
          else (X.drop (262144 * (X.length / 262144 - 1))).take 262144).drop
            (X.length % 262144)).take P := by
  intro fuel
  induction fuel with
  | zero => intro X buffer i hf _ hr _; omega
  | succ f ih =>
    intro X buffer i hf hbuf hr hP
    by_cases hsmall : X.length < 262144
    · have h0 : 0 < X.length := by omega
      have hq : X.length / 262144 = 0 := Nat.div_eq_of_lt hsmall
      have hrr : X.length % 262144 = X.length := Nat.mod_eq_of_lt hsmall
      refine ⟨[⟨i, X ++ (buffer.drop X.length).take P,
               C.enc (nonce24 i) (X ++ (buffer.drop X.length).take P)⟩],
              X ++ (buffer.drop X.length).take P,
              encLoop_last C P f buffer i X h0 hsmall (by omega), ?_, ?_⟩
      · simp [hq]
      · rw [hq]
        simp [hrr]
    · push_neg at hsmall
      have hlen' : (X.drop 262144).length = X.length - 262144 := by
        simp [List.length_drop]
      have hbuf' : (X.take 262144).length = 262144 := by
        simp [List.length_take]; omega
      have hr' : (X.drop 262144).length % 262144 = X.length % 262144 := by
        rw [hlen']; omega
      obtain ⟨chunks', lastPt, henc', hlast', hpt⟩ :=
        ih (X.drop 262144) (X.take 262144) (i + 1)
          (by rw [hlen']; omega) hbuf' (by rw [hr']; exact hr) (by rw [hr']; omega)
      have hidx : i + 1 + (X.drop 262144).length / 262144 = i + X.length / 262144 := by
        rw [hlen']; omega
      rw [hidx] at hlast'
      refine ⟨⟨i, X.take 262144, C.enc (nonce24 i) (X.take 262144)⟩ :: chunks',
              lastPt, ?_, ?_, ?_⟩
      · rw [encLoop_full C P f buffer i X hsmall hbuf, henc']
        rfl
      · exact getLast?_cons_of_getLast? _ _ _ hlast'
      · rw [hpt, hlen']
        have hqpos : X.length / 262144 ≠ 0 := by omega
        rcases Nat.eq_zero_or_pos ((X.length - 262144) / 262144) with hq0 | hq0
        · rw [if_pos hq0, if_neg hqpos, hq0, List.drop_drop]
          have e1 : 262144 + 262144 * 0 = 262144 * (X.length / 262144) := by omega
          have e2 : (X.length - 262144) % 262144 = X.length % 262144 := by omega
          have e3 : 262144 * (X.length / 262144 - 1) = 0 := by omega
          rw [Nat.mul_zero] at e1
          rw [e1, e2, e3, List.drop_zero]
        · rw [if_neg (by omega), if_neg hqpos, List.drop_drop, List.drop_drop]
          have e1 : 262144 + 262144 * ((X.length - 262144) / 262144)
              = 262144 * (X.length / 262144) := by omega
          have e2 : (X.length - 262144) % 262144 = X.length % 262144 := by omega
          have e3 : 262144 + 262144 * ((X.length - 262144) / 262144 - 1)
              = 262144 * (X.length / 262144 - 1) := by omega
          rw [e1, e2, e3]

/-- Round trip of the chunk cipher codec: when the padded final chunk stays
strictly below the chunk size (or the file is chunk-aligned), encryption
succeeds and decrypting its output with the same padding and the last-chunk
index `⌊size / 262160⌋` reproduces the input exactly. -/
theorem encDecRoundtrip (C : StreamCipher) (P : Nat)
    (hlen : ∀ n p, (C.enc n p).length = p.length + 16)
    (hdec : ∀ n p, C.dec n (C.enc n p) = some p) :
    ∀ (fuelE : Nat) (X buffer : List Nat) (i : Nat),
    X.length ≤ fuelE → buffer.length = 262144 →
    (X.length % 262144 = 0 ∨ X.length % 262144 + P < 262144) →
    ∃ chunks out,
      encLoop C P fuelE buffer i X = some chunks ∧
      (chunks.map EncChunk.ciphertext).flatten = out ∧
      out.length = 262160 * (X.length / 262144) +
        (if X.length % 262144 = 0 then 0 else X.length % 262144 + P + 16) ∧
      ∀ (fuelD L : Nat), out.length ≤ fuelD → L = i + out.length / 262160 →
        (decLoop C P L fuelD i out).2 = none ∧
        ((decLoop C P L fuelD i out).1.map DecChunk.written).flatten = X := by
  intro fuelE
  induction fuelE with
  | zero =>
    intro X buffer i hf _ _
    have hX : X = [] := List.length_eq_zero.mp (by omega)
    subst hX
    refine ⟨[], [], encLoop_nil C P 0 buffer i [] rfl, by simp, by simp, ?_⟩
    intro fuelD L _ _
    rw [decLoop_nil C P L fuelD i [] rfl]
    simp
  | succ f ih =>
    intro X buffer i hf hbuf hok
    by_cases hX : X.length = 0
    · have hX' : X = [] := List.length_eq_zero.mp hX
      subst hX'
      refine ⟨[], [], encLoop_nil C P (f + 1) buffer i [] rfl, by simp, by simp, ?_⟩
      intro fuelD L _ _
      rw [decLoop_nil C P L fuelD i [] rfl]
      simp
    · by_cases hsmall : X.length < 262144
      · -- one short, padded final chunk
        have hrr : X.length % 262144 = X.length := Nat.mod_eq_of_lt hsmall
        have hrp : X.length + P < 262144 := by
          rcases hok with h | h
          · omega
          · omega
        have hptlen : (X ++ (buffer.drop X.length).take P).length = X.length + P := by
          simp [List.length_append, List.length_take, List.length_drop]
          omega
        have hctlen : (C.enc (nonce24 i) (X ++ (buffer.drop X.length).take P)).length
            = X.length + P + 16 := by rw [hlen, hptlen]
        refine ⟨[⟨i, X ++ (buffer.drop X.length).take P,
                 C.enc (nonce24 i) (X ++ (buffer.drop X.length).take P)⟩],
                C.enc (nonce24 i) (X ++ (buffer.drop X.length).take P),
                encLoop_last C P f buffer i X (by omega) hsmall (by omega),
                by simp, ?_, ?_⟩
        · rw [hctlen, hrr, Nat.div_eq_of_lt hsmall, if_neg (by omega)]
          omega
        · intro fuelD L hfd hL
          have hdiv : (C.enc (nonce24 i) (X ++ (buffer.drop X.length).take P)).length
              / 262160 = 0 := Nat.div_eq_of_lt (by omega)
          have hiL : i = L := by omega
          rcases fuelD with _ | fd
          · omega
          · have hmin : min (C.enc (nonce24 i) (X ++ (buffer.drop X.length).take P)).length
                262160 = (C.enc (nonce24 i) (X ++ (buffer.drop X.length).take P)).length := by
              omega
            have hd0 : C.dec (nonce24 i)
                ((C.enc (nonce24 i) (X ++ (buffer.drop X.length).take P)).take
                  (min (C.enc (nonce24 i) (X ++ (buffer.drop X.length).take P)).length 262160))
                = some (X ++ (buffer.drop X.length).take P) := by
              rw [hmin, List.take_length]
              exact hdec _ _
            rw [decLoop_last C P L fd i _ _ (by omega) hiL hd0
                (by omega) (by rw [hmin, hptlen, hctlen]; omega)]
            have hdrop : (C.enc (nonce24 i) (X ++ (buffer.drop X.length).take P)).drop
                (min (C.enc (nonce24 i) (X ++ (buffer.drop X.length).take P)).length 262160)
                = [] := by
              rw [hmin]
              exact List.drop_length _
            rw [hdrop, decLoop_nil C P L fd (i + 1) [] rfl]
            refine ⟨rfl, ?_⟩
            have hcut : min (C.enc (nonce24 i) (X ++ (buffer.drop X.length).take P)).length
                262160 - 16 - P = X.length := by omega
            rw [hcut]
            have htl : (X ++ (buffer.drop X.length).take P).take X.length = X :=
              List.take_left' rfl
            simp [htl]
      · -- a full 262144-byte chunk, then recurse
        push_neg at hsmall
        have hlenX' : (X.drop 262144).length = X.length - 262144 := by
          simp [List.length_drop]
        have hbuf' : (X.take 262144).length = 262144 := by
          simp [List.length_take]; omega
        have hmod' : (X.drop 262144).length % 262144 = X.length % 262144 := by
          rw [hlenX']; omega
        obtain ⟨chunks', out', henc', hflat', houtlen', hdecpart⟩ :=
          ih (X.drop 262144) (X.take 262144) (i + 1)
            (by rw [hlenX']; omega) hbuf'
            (by rw [hmod']; exact hok)
        have hpt0len : (X.take 262144).length = 262144 := hbuf'
        have hct0len : (C.enc (nonce24 i) (X.take 262144)).length = 262160 := by
          rw [hlen, hpt0len]
        refine ⟨⟨i, X.take 262144, C.enc (nonce24 i) (X.take 262144)⟩ :: chunks',
                C.enc (nonce24 i) (X.take 262144) ++ out', ?_, ?_, ?_, ?_⟩
        · rw [encLoop_full C P f buffer i X hsmall hbuf, henc']
          rfl
        · simp [hflat']
        · rw [List.length_append, hct0len, houtlen', hlenX']
          have em : (X.length - 262144) % 262144 = X.length % 262144 := by omega
          rw [em]
          split_ifs with hz <;> omega
        · intro fuelD L hfd hL
          have houtlen : (C.enc (nonce24 i) (X.take 262144) ++ out').length
              = 262160 + out'.length := by
            rw [List.length_append, hct0len]
          rw [houtlen] at hfd hL
          rcases fuelD with _ | fd
          · omega
          · have hmin : min (C.enc (nonce24 i) (X.take 262144) ++ out').length 262160
                = 262160 := by rw [houtlen]; omega
            have htake : (C.enc (nonce24 i) (X.take 262144) ++ out').take
                (min (C.enc (nonce24 i) (X.take 262144) ++ out').length 262160)
                = C.enc (nonce24 i) (X.take 262144) := by
              rw [hmin]
              exact List.take_left' hct0len
            have hdropo : (C.enc (nonce24 i) (X.take 262144) ++ out').drop
                (min (C.enc (nonce24 i) (X.take 262144) ++ out').length 262160)
                = out' := by
              rw [hmin]
              exact List.drop_left' hct0len
            have hd0 : C.dec (nonce24 i)
                ((C.enc (nonce24 i) (X.take 262144) ++ out').take
                  (min (C.enc (nonce24 i) (X.take 262144) ++ out').length 262160))
                = some (X.take 262144) := by
              rw [htake]
              exact hdec _ _
            have hne : i ≠ L := by omega
            rw [decLoop_notlast C P L fd i _ _ (by rw [houtlen]; omega) hne hd0, hdropo]
            obtain ⟨ihd1, ihd2⟩ := hdecpart fd L (by omega) (by omega)
            refine ⟨ihd1, ?_⟩
            simp only [List.map_cons, List.flatten_cons, ihd2]
            exact List.take_append_drop 262144 X

theorem mock_hlen : ∀ n p, (mockCipher.enc n p).length = p.length + 16 := by
  intro n p
  simp [mockCipher]

theorem mock_hdec : ∀ n p, mockCipher.dec n (mockCipher.enc n p) = some p := by
  intro n p
  have hl : (p ++ List.replicate 16 (0 : Nat)).length = p.length + 16 := by simp
  have hdropped : (p ++ List.replicate 16 (0 : Nat)).drop
      ((p ++ List.replicate 16 (0 : Nat)).length - 16) = List.replicate 16 0 := by
    rw [hl, Nat.add_sub_cancel]
    exact List.drop_left p _
  show mockCipher.dec n (p ++ List.replicate 16 0) = some p
  rw [mockCipher]
  dsimp only
  rw [if_pos ⟨by omega, hdropped⟩, hl, Nat.add_sub_cancel, List.take_left]

theorem mock_dec_zeros (n : List Nat) (m : Nat) (h16 : 16 ≤ m) :
    mockCipher.dec n (List.replicate m 0) = some (List.replicate (m - 16) 0) := by
  show (if 16 ≤ (List.replicate m (0 : Nat)).length ∧
        (List.replicate m (0 : Nat)).drop ((List.replicate m (0 : Nat)).length - 16)
          = List.replicate 16 0 then
      some ((List.replicate m (0 : Nat)).take ((List.replicate m (0 : Nat)).length - 16))
    else none) = some (List.replicate (m - 16) 0)
  rw [List.length_replicate]
  rw [if_pos ⟨h16, by rw [List.drop_replicate, show m - (m - 16) = 16 from by omega]⟩]
  rw [List.take_replicate, Nat.min_eq_left (by omega)]

theorem mock_hdeclen : ∀ n c p, mockCipher.dec n c = some p → p.length + 16 = c.length := by
  intro n c p h
  rw [mockCipher] at h
  dsimp only at h
  by_cases hc : 16 ≤ c.length ∧ c.drop (c.length - 16) = List.replicate 16 0
  · rw [if_pos hc] at h
    have := Option.some.inj h
    subst this
    simp [List.length_take]
    omega
  · rw [if_neg hc] at h
    exact absurd h (by simp)

/-- C1: the round trip holds under the amended side condition: either the file
is chunk-aligned, or the final partial chunk plus the padding is strictly
shorter than 262144 bytes. -/
theorem c1_roundtrip_amended (C : StreamCipher)
    (hlen : ∀ n p, (C.enc n p).length = p.length + 16)
    (hdec : ∀ n p, C.dec n (C.enc n p) = some p)
    (F : List Nat) (P : Nat)
    (hok : F.length % 262144 = 0 ∨ F.length % 262144 + P < 262144) :
    (encryptedStream C F P).isSome ∧
    ∀ out, encryptedStream C F P = some out →
      (decrypt_file_xchacha20_internal C out P (out.length / 262160)).2 = none ∧
      decryptedOutput C out P (out.length / 262160) = F := by
  obtain ⟨chunks, out, henc, hflat, _, hdecpart⟩ :=
    encDecRoundtrip C P hlen hdec F.length F (List.replicate 262144 0) 0
      le_rfl (List.length_replicate 262144 0) hok
  have hstream : encryptedStream C F P = some out := by
    unfold encryptedStream encrypt_file_xchacha20_internal
    rw [henc]
    simp only [Option.map_some']
    rw [hflat]
  refine ⟨by rw [hstream]; rfl, ?_⟩
  intro out' hout'
  rw [hstream] at hout'
  obtain rfl : out = out' := Option.some.inj hout'
  obtain ⟨h1, h2⟩ := hdecpart out.length (out.length / 262160) le_rfl (by omega)
  exact ⟨h1, h2⟩

/-- C1 witness: the amended round trip applies to a one-byte file with zero
padding and the mock cipher. -/
theorem c1_roundtrip_amended_witness : (encryptedStream mockCipher [5] 0).isSome :=
  (c1_roundtrip_amended mockCipher mock_hlen mock_hdec [5] 0 (Or.inr (by decide))).1

/-- C1 counterexample: for the one-byte file `[0]` with padding 262143 the
padded final plaintext fills the whole chunk, the single ciphertext chunk is a
full 262160 bytes, so the prescribed `L = ⌊262160 / 262160⌋ = 1` skips the
truncation and decryption returns 262144 bytes, not the original file. -/
theorem c1_counterexample :
    encryptedStream mockCipher [0] 262143 = some (List.replicate 262160 0) ∧
    (List.replicate 262160 (0 : Nat)).length / 262160 = 1 ∧
    decryptedOutput mockCipher (List.replicate 262160 0) 262143 1 ≠ [0] := by
  have e3 : (0 : Nat) :: List.replicate 262143 (0 : Nat) = List.replicate 262144 0 := by
    rw [← List.replicate_succ]
  have e4 : List.replicate 262144 (0 : Nat) ++ List.replicate 16 0
      = List.replicate 262160 0 := by
    rw [← List.replicate_add]
  refine ⟨?_, by rw [List.length_replicate], ?_⟩
  · unfold encryptedStream encrypt_file_xchacha20_internal
    rw [show ([0] : List Nat).length = 1 from rfl]
    have henc := encLoop_last mockCipher 262143 0 (List.replicate 262144 0) 0 [0]
      (by norm_num) (by norm_num) (by norm_num)
    norm_num at henc
    rw [henc, Option.map_some']
    simp only [List.map_cons, List.map_nil, List.flatten_cons, List.flatten_nil,
      List.append_nil]
    rw [e3]
    show some (List.replicate 262144 (0 : Nat) ++ List.replicate 16 0) = _
    rw [e4]
  · unfold decryptedOutput decrypt_file_xchacha20_internal
    rw [List.length_replicate]
    have hmin : min (List.replicate 262160 (0 : Nat)).length 262160 = 262160 := by
      rw [List.length_replicate, Nat.min_self]
    have htake : (List.replicate 262160 (0 : Nat)).take
        (min (List.replicate 262160 (0 : Nat)).length 262160)
        = List.replicate 262160 0 := by
      rw [hmin, List.take_replicate, Nat.min_self]
    have hdecz := mock_dec_zeros (nonce24 0) 262160 (by norm_num)
    norm_num at hdecz
    have hdec0 : mockCipher.dec (nonce24 0) ((List.replicate 262160 (0 : Nat)).take
        (min (List.replicate 262160 (0 : Nat)).length 262160))
        = some (List.replicate 262144 0) := (congrArg _ htake).trans hdecz
    have hstep := decLoop_notlast mockCipher 262143 1 262159 0 (List.replicate 262160 0)
      (List.replicate 262144 0) (by rw [List.length_replicate]; norm_num)
      (by norm_num) hdec0
    norm_num at hstep
    rw [hstep]
    rw [decLoop_nil mockCipher 262143 1 262159 1 [] rfl]
    simp only [List.map_cons, List.map_nil, List.flatten_cons, List.flatten_nil,
      List.append_nil]
    intro h
    have hh := congrArg List.length h
    rw [List.length_replicate] at hh
    norm_num at hh

/-- C4: when the final chunk is short, the plaintext fed to the cipher is the
final read followed by `P` residue bytes of the input buffer (previous full
chunk, or the zero-initialised buffer for a file shorter than one chunk), and
its length is `bytes_read + P`. -/
theorem c4_final_chunk_padding (C : StreamCipher) (F : List Nat) (P : Nat)
    (hr : 0 < F.length % 262144) (hP : F.length % 262144 + P ≤ 262144) :
    lastChunkPlaintext C F P =
      some (F.drop (262144 * (F.length / 262144)) ++
        ((if F.length / 262144 = 0 then List.replicate 262144 0
          else (F.drop (262144 * (F.length / 262144 - 1))).take 262144).drop
            (F.length % 262144)).take P) ∧
    (F.drop (262144 * (F.length / 262144)) ++
        ((if F.length / 262144 = 0 then List.replicate 262144 0
          else (F.drop (262144 * (F.length / 262144 - 1))).take 262144).drop
            (F.length % 262144)).take P).length = F.length % 262144 + P := by
  have hres : (if F.length / 262144 = 0 then List.replicate 262144 (0 : Nat)
      else (F.drop (262144 * (F.length / 262144 - 1))).take 262144).length = 262144 := by
    by_cases hq : F.length / 262144 = 0
    · rw [if_pos hq, List.length_replicate]
    · rw [if_neg hq, List.length_take, List.length_drop]
      omega
  constructor
  · obtain ⟨chunks, lastPt, henc, hlast, hpt⟩ :=
      encLoop_lastChunk C P F.length F (List.replicate 262144 0) 0
        le_rfl (List.length_replicate 262144 0) hr hP
    unfold lastChunkPlaintext encrypt_file_xchacha20_internal
    rw [henc, Option.some_bind, hlast, Option.map_some']
    rw [hpt]
  · rw [List.length_append, List.length_take, List.length_drop, List.length_drop, hres]
    omega

/-- C4 witness: a one-byte file with padding 0 feeds exactly that byte to the
cipher. -/
theorem c4_final_chunk_padding_witness : lastChunkPlaintext mockCipher [5] 0 = some [5] := by
  have h := (c4_final_chunk_padding mockCipher [5] 0 (by decide) (by decide)).1
  rw [h]
  simp only [List.take_zero, List.append_nil]
  rw [show ([5] : List Nat).length = 1 from rfl,
      show (262144 * (1 / 262144) : Nat) = 0 from rfl, List.drop_zero]

theorem take_min (l : List Nat) (n : Nat) : l.take (min l.length n) = l.take n := by
  rcases le_total l.length n with h | h
  · rw [min_eq_left h, List.take_length, List.take_of_length_le h]
  · rw [min_eq_right h]

/-- Decryption aborts at the first chunk whose authentication fails, having
logged exactly the chunks before it (so nothing of the failing chunk reaches
the output). -/
theorem decLoop_abort (C : StreamCipher) (P L : Nat)
    (hdeclen : ∀ n c p, C.dec n c = some p → p.length + 16 = c.length)
    (hP : P ≤ 262144) :
    ∀ (j a : Nat) (input : List Nat) (fuel : Nat),
    input.length ≤ fuel →
    262160 * j < input.length →
    C.dec (nonce24 (a + j)) ((input.drop (262160 * j)).take 262160) = none →
    (∀ i, i < j →
      ∃ pt, C.dec (nonce24 (a + i)) ((input.drop (262160 * i)).take 262160) = some pt) →
    (decLoop C P L fuel a input).2 = some (DecErr.authFail (a + j)) ∧
    (decLoop C P L fuel a input).1.length = j ∧
    ∀ e ∈ (decLoop C P L fuel a input).1, e.index < a + j := by
  intro j
  induction j with
  | zero =>
    intro a input fuel hfuel hj hfail hok
    simp only [Nat.mul_zero, List.drop_zero, Nat.add_zero] at hfail ⊢
    rcases fuel with _ | f
    · omega
    · rw [decLoop_authfail C P L f a input (by omega) (by rw [take_min]; exact hfail)]
      exact ⟨rfl, rfl, by intro e he; simp at he⟩
  | succ jj ih =>
    intro a input fuel hfuel hj hfail hok
    rcases fuel with _ | f
    · omega
    · have hcount : min input.length 262160 = 262160 := by omega
      obtain ⟨pt0, hpt0⟩ := hok 0 (by omega)
      simp only [Nat.mul_zero, List.drop_zero, Nat.add_zero] at hpt0
      have hdec0 : C.dec (nonce24 a) (input.take (min input.length 262160)) = some pt0 := by
        rw [take_min]; exact hpt0
      have hpt0len : pt0.length = 262144 := by
        have h1 := hdeclen _ _ _ hdec0
        rw [List.length_take] at h1
        omega
      have hshift : ∀ m : Nat, (input.drop 262160).drop (262160 * m)
          = input.drop (262160 * (m + 1)) := by
        intro m
        rw [List.drop_drop, show 262160 + 262160 * m = 262160 * (m + 1) from by ring]
      have hfail' : C.dec (nonce24 (a + 1 + jj))
          (((input.drop 262160).drop (262160 * jj)).take 262160) = none := by
        rw [hshift, show a + 1 + jj = a + (jj + 1) from by omega]
        exact hfail
      have hok' : ∀ i, i < jj →
          ∃ pt, C.dec (nonce24 (a + 1 + i))
            (((input.drop 262160).drop (262160 * i)).take 262160) = some pt := by
        intro i hi
        obtain ⟨pt, hpt⟩ := hok (i + 1) (by omega)
        refine ⟨pt, ?_⟩
        rw [hshift, show a + 1 + i = a + (i + 1) from by omega]
        exact hpt
      obtain ⟨ih1, ih2, ih3⟩ := ih (a + 1) (input.drop 262160) f
        (by rw [List.length_drop]; omega)
        (by rw [List.length_drop]; omega) hfail' hok'
      have hidx : a + 1 + jj = a + (jj + 1) := by omega
      rw [hidx] at ih1
      by_cases haL : a = L
      · rw [decLoop_last C P L f a input pt0 (by omega) haL hdec0
            (by omega) (by rw [hpt0len]; omega), hcount]
        refine ⟨ih1, by simp only [List.length_cons, ih2], ?_⟩
        intro e he
        rcases List.mem_cons.mp he with heq | hrest
        · rw [heq]
          dsimp only
          omega
        · have := ih3 e hrest
          omega
      · rw [decLoop_notlast C P L f a input pt0 (by omega) haL hdec0, hcount]
        refine ⟨ih1, by simp only [List.length_cons, ih2], ?_⟩
        intro e he
        rcases List.mem_cons.mp he with heq | hrest
        · rw [heq]
          dsimp only
          omega
        · have := ih3 e hrest
          omega

/-- C2: a chunk whose authentication tag fails to verify makes decryption
abort at exactly that chunk (the first failing one): the error carries the
chunk's index, exactly the earlier chunks were logged, and no entry for the
failing chunk — hence none of its bytes — reaches the output sink. -/
theorem c2_auth_failure (C : StreamCipher) (P L : Nat) (input : List Nat) (j : Nat)
    (hdeclen : ∀ n c p, C.dec n c = some p → p.length + 16 = c.length)
    (hP : P ≤ 262144)
    (hj : 262160 * j < input.length)
    (hfail : C.dec (nonce24 j) ((input.drop (262160 * j)).take 262160) = none)
    (hok : ∀ i, i < j →
      ∃ pt, C.dec (nonce24 i) ((input.drop (262160 * i)).take 262160) = some pt) :
    (decrypt_file_xchacha20_internal C input P L).2 = some (DecErr.authFail j) ∧
    (decrypt_file_xchacha20_internal C input P L).1.length = j ∧
    ∀ e ∈ (decrypt_file_xchacha20_internal C input P L).1, e.index < j := by
  have h := decLoop_abort C P L hdeclen hP j 0 input input.length le_rfl hj
    (by rw [Nat.zero_add]; exact hfail)
    (by intro i hi; rw [Nat.zero_add]; exact hok i hi)
  rw [Nat.zero_add] at h
  exact h

/-- C2 witness: a single 20-byte chunk whose mock tag is wrong is rejected at
chunk 0 with an empty log. -/
theorem c2_auth_failure_witness :
    (decrypt_file_xchacha20_internal mockCipher (List.replicate 20 1) 0 0).2
      = some (DecErr.authFail 0) ∧
    (decrypt_file_xchacha20_internal mockCipher (List.replicate 20 1) 0 0).1.length = 0 := by
  have h := c2_auth_failure mockCipher 0 0 (List.replicate 20 1) 0 mock_hdeclen
    (by norm_num) (by decide) (by decide) (by intro i hi; omega)
  exact ⟨h.1, h.2.1⟩

/-- C3 (amended): every chunk the decryption loop logs is written unmodified
when its index differs from `L`; the chunk with index `L` is written as the
plaintext truncated to `count - (16 + P)` bytes, i.e. truncated by exactly `P`
bytes relative to the decrypted plaintext (not by `16 + P`). -/
theorem c3_truncation_amended (C : StreamCipher) (P L : Nat) (input : List Nat)
    (hdeclen : ∀ n c p, C.dec n c = some p → p.length + 16 = c.length) :
    ∀ e ∈ (decrypt_file_xchacha20_internal C input P L).1,
      (e.index = L → e.written = e.plaintext.take (e.count - (16 + P)) ∧
        e.written.length + P = e.plaintext.length) ∧
      (e.index ≠ L → e.written = e.plaintext) := by
  show ∀ e ∈ (decLoop C P L input.length 0 input).1, _
  generalize input.length = fuel
  -- the start index and the remaining input vary along the loop
  suffices h : ∀ (fuel i : Nat) (inp : List Nat), ∀ e ∈ (decLoop C P L fuel i inp).1,
      (e.index = L → e.written = e.plaintext.take (e.count - (16 + P)) ∧
        e.written.length + P = e.plaintext.length) ∧
      (e.index ≠ L → e.written = e.plaintext) by
    exact h fuel 0 input
  intro fuel
  induction fuel with
  | zero =>
    intro i inp e he
    rw [decLoop_fuelzero] at he
    simp at he
  | succ f ihf =>
    intro i inp e he
    by_cases h0 : inp.length = 0
    · rw [decLoop_nil C P L (f + 1) i inp h0] at he
      simp at he
    · rcases hdc : C.dec (nonce24 i) (inp.take (min inp.length 262160)) with _ | pt
      · rw [decLoop_authfail C P L f i inp (by omega) hdc] at he
        simp at he
      · by_cases hiL : i = L
        · by_cases hg : 16 + P ≤ min inp.length 262160 ∧
              min inp.length 262160 - 16 - P ≤ pt.length
          · rw [decLoop_last C P L f i inp pt (by omega) hiL hdc hg.1 hg.2] at he
            rcases List.mem_cons.mp he with heq | hrest
            · subst heq
              have hptlen := hdeclen _ _ _ hdc
              rw [List.length_take] at hptlen
              refine ⟨fun _ => ⟨by dsimp only; rw [Nat.sub_sub], ?_⟩,
                      fun hne => absurd hiL hne⟩
              dsimp only
              rw [List.length_take]
              omega
            · exact ihf (i + 1) _ e hrest
          · rw [decLoop_slicefail C P L f i inp pt (by omega) hiL hdc hg] at he
            simp at he
        · rw [decLoop_notlast C P L f i inp pt (by omega) hiL hdc] at he
          rcases List.mem_cons.mp he with heq | hrest
          · subst heq
            exact ⟨fun hh => absurd hh hiL, fun _ => rfl⟩
          · exact ihf (i + 1) _ e hrest

/-- C3 witness: a genuine single-chunk stream of 100 ciphertext bytes with
padding 2 and `L = 0`: the 84-byte plaintext is written truncated to 82 bytes,
i.e. by `P = 2`, equivalently to `count - (16 + P)` bytes. -/
theorem c3_truncation_amended_witness :
    (List.replicate 82 7 : List Nat) = (List.replicate 84 7).take (100 - (16 + 2)) ∧
    (List.replicate 82 7 : List Nat).length + 2 = (List.replicate 84 7 : List Nat).length := by
  have h := c3_truncation_amended mockCipher 2 0
    (List.replicate 84 7 ++ List.replicate 16 0) mock_hdeclen
    ⟨0, 100, List.replicate 84 7, List.replicate 82 7⟩ (by decide)
  exact h.1 rfl

/-- C3 counterexample: in that same run the decrypted plaintext has 84 bytes
and the written slice has 82 = 84 - 2 bytes, not 84 - (16 + 2) = 66: the
plaintext is truncated by `P`, not by `16 + P`. -/
theorem c3_counterexample :
    (decrypt_file_xchacha20_internal mockCipher
        (List.replicate 84 7 ++ List.replicate 16 0) 2 0).1
      = [⟨0, 100, List.replicate 84 7, List.replicate 82 7⟩] ∧
    ¬ ((List.replicate 82 7 : List Nat).length
        = (List.replicate 84 7 : List Nat).length - (16 + 2)) := by
  exact ⟨by decide, by decide⟩

/-! ## Lemmas: base64 transport and the CID codec -/

theorem std_decChar_enc : ∀ i, i < 64 →
    b64DecChar (fromUrlChar (urlReplace (b64EncChar i))) = some i := by decide

theorem url_decChar_enc : ∀ i, i < 64 →
    urlDecChar (urlReplace (b64EncChar i)) = some i := by decide

theorem encChar_replaced_ne61 : ∀ i, i < 64 →
    fromUrlChar (urlReplace (b64EncChar i)) ≠ 61 := by decide

theorem encChar_replaced_ne46 : ∀ i, i < 64 → urlReplace (b64EncChar i) ≠ 46 := by decide

/-- Every character the no-pad encoder emits is an alphabet character with a
digit value below 64. -/
theorem enc_chars : ∀ (b : List Nat), (∀ x ∈ b, x < 256) →
    ∀ c ∈ b64EncodeNoPad b, ∃ i, i < 64 ∧ c = b64EncChar i
  | [], _ => by simp [b64EncodeNoPad]
  | [x], h => by
    have hx : x < 256 := h x (by simp)
    intro c hc
    simp only [b64EncodeNoPad, List.mem_cons, List.not_mem_nil, or_false] at hc
    rcases hc with rfl | rfl
    · exact ⟨x / 4, by omega, rfl⟩
    · exact ⟨x % 4 * 16, by omega, rfl⟩
  | [x, y], h => by
    have hx : x < 256 := h x (by simp)
    have hy : y < 256 := h y (by simp)
    intro c hc
    simp only [b64EncodeNoPad, List.mem_cons, List.not_mem_nil, or_false] at hc
    rcases hc with rfl | rfl | rfl
    · exact ⟨x / 4, by omega, rfl⟩
    · exact ⟨x % 4 * 16 + y / 16, by omega, rfl⟩
    · exact ⟨y % 16 * 4, by omega, rfl⟩
  | x :: y :: z :: rest, h => by
    have hx : x < 256 := h x (by simp)
    have hy : y < 256 := h y (by simp)
    have hz : z < 256 := h z (by simp)
    intro c hc
    simp only [b64EncodeNoPad, List.mem_cons] at hc
    rcases hc with rfl | rfl | rfl | rfl | hc
    · exact ⟨x / 4, by omega, rfl⟩
    · exact ⟨x % 4 * 16 + y / 16, by omega, rfl⟩
    · exact ⟨y % 16 * 4 + z / 64, by omega, rfl⟩
    · exact ⟨z % 64, by omega, rfl⟩
    · exact enc_chars rest (fun u hu => h u (by simp [hu])) c hc

/-- Decoding inverts encoding, for any per-digit decoder `d` that inverts the
alphabet through the character transformation `g` applied after encoding. -/
theorem b64DecodeCore_map_enc (d : Nat → Option Nat) (g : Nat → Nat)
    (hd : ∀ i, i < 64 → d (g (b64EncChar i)) = some i) :
    ∀ b : List Nat, (∀ x ∈ b, x < 256) →
    b64DecodeCore d ((b64EncodeNoPad b).map g) = some b
  | [], _ => by simp [b64EncodeNoPad, b64DecodeCore]
  | [x], h => by
    have hx : x < 256 := h x (by simp)
    simp only [b64EncodeNoPad, List.map_cons, List.map_nil, b64DecodeCore]
    rw [hd (x / 4) (by omega), hd (x % 4 * 16) (by omega)]
    simp only []
    rw [if_pos (by omega : x % 4 * 16 % 16 = 0)]
    simp only [Option.some.injEq, List.cons.injEq, and_true]
    omega
  | [x, y], h => by
    have hx : x < 256 := h x (by simp)
    have hy : y < 256 := h y (by simp)
    simp only [b64EncodeNoPad, List.map_cons, List.map_nil, b64DecodeCore]
    rw [hd (x / 4) (by omega), hd (x % 4 * 16 + y / 16) (by omega),
        hd (y % 16 * 4) (by omega)]
    simp only []
    rw [if_pos (by omega : y % 16 * 4 % 4 = 0)]
    simp only [Option.some.injEq, List.cons.injEq, and_true]
    constructor
    · omega
    · omega
  | x :: y :: z :: rest, h => by
    have hx : x < 256 := h x (by simp)
    have hy : y < 256 := h y (by simp)
    have hz : z < 256 := h z (by simp)
    have hr := b64DecodeCore_map_enc d g hd rest (fun u hu => h u (by simp [hu]))
    simp only [b64EncodeNoPad, List.map_cons, b64DecodeCore]
    rw [hd (x / 4) (by omega), hd (x % 4 * 16 + y / 16) (by omega),
        hd (y % 16 * 4 + z / 64) (by omega), hd (z % 64) (by omega)]
    simp only []
    rw [hr]
    simp only [Option.map_some', Option.some.injEq, List.cons.injEq, and_true]
    refine ⟨by omega, by omega, by omega⟩

/-- `base64url_to_bytes` inverts `bytes_to_base64url` on valid byte lists. -/
theorem base64url_roundtrip (b : List Nat) (hb : ∀ x ∈ b, x < 256) :
    base64url_to_bytes (bytes_to_base64url b) = some b := by
  unfold base64url_to_bytes bytes_to_base64url
  rw [List.map_map]
  have hfil : ((b64EncodeNoPad b).map (fromUrlChar ∘ urlReplace)).filter
      (fun c => c ≠ 61) = (b64EncodeNoPad b).map (fromUrlChar ∘ urlReplace) := by
    apply List.filter_eq_self.mpr
    intro a ha
    obtain ⟨c, hc, rfl⟩ := List.mem_map.mp ha
    obtain ⟨i, hi, rfl⟩ := enc_chars b hb c hc
    have := encChar_replaced_ne61 i hi
    simpa using this
  rw [hfil]
  exact b64DecodeCore_map_enc b64DecChar (fromUrlChar ∘ urlReplace)
    (fun i hi => std_decChar_enc i hi) b hb

/-- The URL-safe decoder (used by `hash_to_cid`) also inverts
`bytes_to_base64url`. -/
theorem urlsafe_decode_encode (b : List Nat) (hb : ∀ x ∈ b, x < 256) :
    b64DecodeCore urlDecChar (bytes_to_base64url b) = some b := by
  unfold bytes_to_base64url
  exact b64DecodeCore_map_enc urlDecChar urlReplace url_decChar_enc b hb

theorem rfind46_eq_none : ∀ s : List Nat, (∀ c ∈ s, c ≠ 46) → rfind46 s = none
  | [], _ => rfl
  | c :: rest, h => by
    show (match rfind46 rest with
      | some k => some (k + 1)
      | none => if c = 46 then some 0 else none) = none
    rw [rfind46_eq_none rest (fun x hx => h x (List.mem_cons_of_mem c hx))]
    exact if_neg (h c (List.mem_cons_self c rest))

theorem u32be_lt (n : Nat) : ∀ x ∈ u32be n, x < 256 := by
  intro x hx
  simp only [u32be, List.mem_cons, List.not_mem_nil, or_false] at hx
  rcases hx with rfl | rfl | rfl | rfl <;> omega

/-- C5: CID round trip.  `decode_key` of the textual encrypted CID
(`'u'` + base64url of `create_encrypted_cid`'s bytes) recovers exactly the
embedded 32-byte key, and `decode_encrypted_blob_hash` recovers exactly the
embedded 33-byte hash (each returned re-encoded in base64url, which decodes
back to the embedded bytes). -/
theorem c5_cid_roundtrip (t a c padding : Nat) (hash key ocid : List Nat)
    (ht : t < 256) (ha : a < 256) (hc : c < 256)
    (hh : hash.length = 33) (hhb : ∀ x ∈ hash, x < 256)
    (hk : key.length = 32) (hkb : ∀ x ∈ key, x < 256)
    (hob : ∀ x ∈ ocid, x < 256) :
    get_key_from_encrypted_cid
        (117 :: bytes_to_base64url (create_encrypted_cid t a c hash key padding ocid))
      = some (bytes_to_base64url key) ∧
    base64url_to_bytes (bytes_to_base64url key) = some key ∧
    get_base64_url_encrypted_blob_hash
        (117 :: bytes_to_base64url (create_encrypted_cid t a c hash key padding ocid))
      = some (bytes_to_base64url hash) ∧
    base64url_to_bytes (bytes_to_base64url hash) = some hash := by
  have hcidb : ∀ x ∈ create_encrypted_cid t a c hash key padding ocid, x < 256 := by
    intro x hx
    simp only [create_encrypted_cid, List.mem_cons, List.mem_append] at hx
    rcases hx with rfl | rfl | rfl | ((hx | hx) | hx) | hx
    · exact ht
    · exact ha
    · exact hc
    · exact hhb x hx
    · exact hkb x hx
    · exact u32be_lt padding x hx
    · exact hob x hx
  have hsplit : create_encrypted_cid t a c hash key padding ocid
      = (t :: a :: c :: hash) ++ (key ++ (u32be padding ++ ocid)) := by
    simp [create_encrypted_cid, List.append_assoc]
  have hlen36 : (t :: a :: c :: hash).length = 36 := by
    simp [List.length_cons, hh]
  have hcidlen : (create_encrypted_cid t a c hash key padding ocid).length
      = 72 + ocid.length := by
    rw [hsplit, List.length_append, List.length_append, List.length_append, hlen36,
        hk]
    simp [u32be]
    omega
  have hrt : base64url_to_bytes
      ((117 :: bytes_to_base64url (create_encrypted_cid t a c hash key padding ocid)).drop 1)
      = some (create_encrypted_cid t a c hash key padding ocid) := by
    show base64url_to_bytes
        (bytes_to_base64url (create_encrypted_cid t a c hash key padding ocid)) = _
    exact base64url_roundtrip _ hcidb
  refine ⟨?_, base64url_roundtrip key hkb, ?_, base64url_roundtrip hash hhb⟩
  · unfold get_key_from_encrypted_cid
    have hno46 : ∀ ch ∈ 117 :: bytes_to_base64url
        (create_encrypted_cid t a c hash key padding ocid), ch ≠ 46 := by
      intro ch hch
      rcases List.mem_cons.mp hch with rfl | hch
      · omega
      · obtain ⟨c', hc', rfl⟩ := List.mem_map.mp hch
        obtain ⟨i, hi, rfl⟩ := enc_chars _ hcidb c' hc'
        exact encChar_replaced_ne46 i hi
    rw [rfind46_eq_none _ hno46]
    rw [if_neg (by simp [List.length_cons])]
    rw [hrt]
    dsimp only
    rw [if_pos (by rw [hcidlen]; omega)]
    rw [hsplit, List.drop_left' hlen36, List.take_left' hk]
  · unfold get_base64_url_encrypted_blob_hash
    rw [if_neg (by simp [List.length_cons])]
    rw [hrt]
    dsimp only
    rw [if_pos (by rw [hcidlen]; omega)]
    have hdrop3 : (create_encrypted_cid t a c hash key padding ocid).drop 3
        = hash ++ (key ++ u32be padding ++ ocid) := by
      simp [create_encrypted_cid, List.append_assoc]
    rw [hdrop3, List.take_left' hh]

/-- C5 witness: concrete 32-byte key and 33-byte hash. -/
theorem c5_cid_roundtrip_witness :
    get_key_from_encrypted_cid
        (117 :: bytes_to_base64url (create_encrypted_cid 1 2 3
          (List.replicate 33 9) (List.replicate 32 5) 7 [1, 2]))
      = some (bytes_to_base64url (List.replicate 32 5)) ∧
    base64url_to_bytes (bytes_to_base64url (List.replicate 32 5))
      = some (List.replicate 32 5) := by
  have h := c5_cid_roundtrip 1 2 3 7 (List.replicate 33 9) (List.replicate 32 5) [1, 2]
    (by decide) (by decide) (by decide) (by decide) (by decide) (by decide) (by decide)
    (by decide)
  exact ⟨h.1, h.2.1⟩

theorem trim_decomp (l : List Nat) :
    ∃ k, l = trimTrailingZeros l ++ List.replicate k 0 := by
  refine ⟨(l.reverse.takeWhile (fun b => b == 0)).length, ?_⟩
  have hz : (l.reverse.takeWhile (fun b => b == 0)).reverse
      = List.replicate (l.reverse.takeWhile (fun b => b == 0)).length 0 := by
    rw [← List.reverse_replicate]
    congr 1
    apply List.eq_replicate_of_mem
    intro b hb
    have := List.mem_takeWhile_imp hb
    simpa using this
  calc l = l.reverse.reverse := (List.reverse_reverse l).symm
    _ = (l.reverse.takeWhile (fun b => b == 0) ++ l.reverse.dropWhile (fun b => b == 0)).reverse := by
        rw [List.takeWhile_append_dropWhile]
    _ = trimTrailingZeros l ++ (l.reverse.takeWhile (fun b => b == 0)).reverse := by
        rw [List.reverse_append]
        rfl
    _ = trimTrailingZeros l ++ List.replicate _ 0 := by rw [hz]

theorem fromLE_replicate_zero : ∀ k, fromLEBytes (List.replicate k 0) = 0
  | 0 => rfl
  | k + 1 => by
    rw [List.replicate_succ]
    show 0 + 256 * fromLEBytes (List.replicate k 0) = 0
    rw [fromLE_replicate_zero k]

theorem fromLE_append_zeros : ∀ (l : List Nat) (k : Nat),
    fromLEBytes (l ++ List.replicate k 0) = fromLEBytes l
  | [], k => by
    rw [List.nil_append]
    exact fromLE_replicate_zero k
  | b :: rest, k => by
    rw [List.cons_append]
    show b + 256 * fromLEBytes (rest ++ List.replicate k 0) = b + 256 * fromLEBytes rest
    rw [fromLE_append_zeros rest k]

theorem fromLE_u64le (n : Nat) (hn : n < 18446744073709551616) :
    fromLEBytes (u64le n) = n := by
  simp only [u64le, fromLEBytes]
  omega

/-- C6: the plain-CID encoders append the little-endian `u64` file size with
all trailing zero bytes stripped: the trimmed bytes still evaluate back to the
size, size 0 appends nothing, and size 256 appends exactly `0x00, 0x01`. -/
theorem c6_size_trimming (hash hb : List Nat) (n : Nat)
    (hn : n < 18446744073709551616) (hbv : ∀ x ∈ hb, x < 256) :
    hash_bytes_to_cid hash n = 38 :: 31 :: (hash ++ trimTrailingZeros (u64le n)) ∧
    fromLEBytes (trimTrailingZeros (u64le n)) = n ∧
    hash_bytes_to_cid hash 0 = 38 :: 31 :: hash ∧
    hash_bytes_to_cid hash 256 = 38 :: 31 :: (hash ++ [0, 1]) ∧
    hash_to_cid (bytes_to_base64url hb) n
      = some (38 :: (hb ++ trimTrailingZeros (u64le n))) := by
  refine ⟨rfl, ?_, ?_, ?_, ?_⟩
  · obtain ⟨k, hk⟩ := trim_decomp (u64le n)
    have h1 : fromLEBytes (u64le n) = n := fromLE_u64le n hn
    rw [hk, fromLE_append_zeros] at h1
    exact h1
  · show 38 :: 31 :: (hash ++ trimTrailingZeros (u64le 0)) = _
    rw [show trimTrailingZeros (u64le 0) = [] from by decide, List.append_nil]
  · show 38 :: 31 :: (hash ++ trimTrailingZeros (u64le 256)) = _
    rw [show trimTrailingZeros (u64le 256) = [0, 1] from by decide]
  · unfold hash_to_cid
    rw [urlsafe_decode_encode hb hbv]

/-- C6 witness. -/
theorem c6_size_trimming_witness :
    hash_bytes_to_cid [1] 256 = 38 :: 31 :: ([1] ++ [0, 1]) ∧
    fromLEBytes (trimTrailingZeros (u64le 256)) = 256 := by
  have h := c6_size_trimming [1] [2] 256 (by norm_num) (by decide)
  exact ⟨h.2.2.2.1, h.2.1⟩

/-! ## Lemmas: the tus metadata header formats -/

theorem b64DecodeCore_none_of_mem (d : Nat → Option Nat) :
    ∀ (l : List Nat) (c : Nat), d c = none → c ∈ l → b64DecodeCore d l = none
  | [], c, _, hm => absurd hm (List.not_mem_nil c)
  | [_], _, _, _ => rfl
  | [a, b], c, h, hm => by
    simp only [List.mem_cons, List.not_mem_nil, or_false] at hm
    rcases hm with rfl | rfl
    · rcases h2 : d b with _ | y <;> simp [b64DecodeCore, h, h2]
    · rcases h1 : d a with _ | x <;> simp [b64DecodeCore, h, h1]
  | [a, b, e], c, h, hm => by
    simp only [List.mem_cons, List.not_mem_nil, or_false] at hm
    rcases hm with rfl | rfl | rfl
    · rcases h2 : d b with _ | y <;> rcases h3 : d e with _ | z <;>
        simp [b64DecodeCore, h, h2, h3]
    · rcases h1 : d a with _ | x <;> rcases h3 : d e with _ | z <;>
        simp [b64DecodeCore, h, h1, h3]
    · rcases h1 : d a with _ | x <;> rcases h2 : d b with _ | y <;>
        simp [b64DecodeCore, h, h1, h2]
  | a :: b :: e :: f :: rest, c, h, hm => by
    simp only [List.mem_cons] at hm
    rcases hm with rfl | rfl | rfl | rfl | hm
    · rcases h2 : d b with _ | y <;> rcases h3 : d e with _ | z <;>
        rcases h4 : d f with _ | w <;> simp [b64DecodeCore, h, h2, h3, h4]
    · rcases h1 : d a with _ | x <;> rcases h3 : d e with _ | z <;>
        rcases h4 : d f with _ | w <;> simp [b64DecodeCore, h, h1, h3, h4]
    · rcases h1 : d a with _ | x <;> rcases h2 : d b with _ | y <;>
        rcases h4 : d f with _ | w <;> simp [b64DecodeCore, h, h1, h2, h4]
    · rcases h1 : d a with _ | x <;> rcases h2 : d b with _ | y <;>
        rcases h3 : d e with _ | z <;> simp [b64DecodeCore, h, h1, h2, h3]
    · rcases h1 : d a with _ | x <;> rcases h2 : d b with _ | y <;>
        rcases h3 : d e with _ | z <;> rcases h4 : d f with _ | w <;>
        simp [b64DecodeCore, h, h1, h2, h3, h4,
          b64DecodeCore_none_of_mem d rest c h hm]

theorem mem32_header (metadata : List (List Nat × List Nat)) (h : metadata ≠ []) :
    32 ∈ create_with_metadata_header metadata := by
  rcases metadata with _ | ⟨⟨k, v⟩, rest⟩
  · exact absurd rfl h
  · unfold create_with_metadata_header
    simp only [List.map_cons]
    rcases rest with _ | ⟨p, more⟩
    · show 32 ∈ k ++ 32 :: b64EncodePad v
      simp
    · show 32 ∈ (k ++ 32 :: b64EncodePad v) ++
        44 :: joinComma ((p :: more).map (fun kv => kv.1 ++ 32 :: b64EncodePad kv.2))
      simp

theorem mem32_trailing_strip (l : List Nat) (h : 32 ∈ l) :
    32 ∈ (l.reverse.dropWhile (fun c => c == 61)).reverse := by
  rw [List.mem_reverse]
  have h' : 32 ∈ l.reverse := List.mem_reverse.mpr h
  rw [← List.takeWhile_append_dropWhile (p := fun c => c == 61) (l := l.reverse)] at h'
  rcases List.mem_append.mp h' with htw | hdw
  · have := List.mem_takeWhile_imp htw
    simp at this
  · exact hdw

/-- C7 (amended): the header `create_with_metadata` builds is NOT in the
format `get_info` parses: the builder emits `key<space>base64(value)` pairs
joined with commas, while the parser base64-decodes the entire header value
first — and the space (32) the builder always emits is not a base64 character,
so the parse yields no metadata for every non-empty map. -/
theorem c7_metadata_mismatch (metadata : List (List Nat × List Nat))
    (h : metadata ≠ []) :
    get_info_parse_metadata (create_with_metadata_header metadata) = none := by
  unfold get_info_parse_metadata decodeStdPadded
  by_cases hg : (create_with_metadata_header metadata).length -
      ((create_with_metadata_header metadata).reverse.dropWhile
        (fun c => c == 61)).reverse.length ≤ 2
  · rw [if_pos hg]
    rw [b64DecodeCore_none_of_mem b64DecChar _ 32 rfl
      (mem32_trailing_strip _ (mem32_header metadata h))]
  · rw [if_neg hg]

/-- C7 witness: parsing the header built for the map `{"key": "value"}` (byte
strings) yields no metadata. -/
theorem c7_metadata_mismatch_witness :
    get_info_parse_metadata (create_with_metadata_header [([104], [105])]) = none :=
  c7_metadata_mismatch [([104], [105])] (by simp)

/-- C7 counterexample: for the map `{"key": "value"}` the claim's round trip
fails outright — `get_info`'s parse of the built header is `none`, not the
original map. -/
theorem c7_counterexample :
    get_info_parse_metadata
        (create_with_metadata_header [([107, 101, 121], [118, 97, 108, 117, 101])])
      = none ∧
    get_info_parse_metadata
        (create_with_metadata_header [([107, 101, 121], [118, 97, 108, 117, 101])])
      ≠ some [([107, 101, 121], [118, 97, 108, 117, 101])] := by
  exact ⟨by decide, by decide⟩

/-! ## Lemmas: the tus upload loop -/

theorem uploadLoop_stuck (env : UploadEnv) (fuel pos reqs : Nat)
    (h : min env.chunkSize (env.fileLen - pos) = 0) :
    uploadLoop env fuel pos reqs = (Except.error TusError.fileReadError, reqs) := by
  rw [uploadLoop.eq_def]
  dsimp only
  rw [if_pos h]

theorem uploadLoop_succ (env : UploadEnv) (fuel pos reqs : Nat)
    (h : ¬min env.chunkSize (env.fileLen - pos) = 0) :
    uploadLoop env (fuel + 1) pos reqs =
      if (env.responses reqs).status = 409 then
        (Except.error TusError.wrongUploadOffsetError, reqs + 1)
      else if (env.responses reqs).status = 404 then
        (Except.error TusError.notFoundError, reqs + 1)
      else if (env.responses reqs).status ≠ 204 then
        (Except.error (TusError.unexpectedStatusCode (env.responses reqs).status), reqs + 1)
      else
        match (env.responses reqs).uploadOffset with
        | none => (Except.error TusError.missingHeader, reqs + 1)
        | some none => (Except.error TusError.parsingError, reqs + 1)
        | some (some progress) =>
          if env.fileLen ≤ progress then (Except.ok (), reqs + 1)
          else uploadLoop env fuel (pos + min env.chunkSize (env.fileLen - pos))
            (reqs + 1) := by
  rw [uploadLoop.eq_def]
  dsimp only
  rw [if_neg h]

/-- The upload loop aborts with `WrongUploadOffsetError` immediately after the
first `PATCH` request answered 409, sending no further request. -/
theorem uploadLoop_first409 (env : UploadEnv) :
    ∀ (fuel pos r0 k : Nat),
    r0 ≤ k → k < (uploadLoop env fuel pos r0).2 →
    (env.responses k).status = 409 →
    (∀ j, r0 ≤ j → j < k → (env.responses j).status ≠ 409) →
    (uploadLoop env fuel pos r0).1 = Except.error TusError.wrongUploadOffsetError ∧
    (uploadLoop env fuel pos r0).2 = k + 1 := by
  intro fuel
  induction fuel with
  | zero =>
    intro pos r0 k hr0 hk h409 hmin
    by_cases hread : min env.chunkSize (env.fileLen - pos) = 0
    · rw [uploadLoop_stuck env 0 pos r0 hread] at hk
      dsimp only at hk
      omega
    · rw [uploadLoop.eq_def] at hk
      dsimp only at hk
      rw [if_neg hread] at hk
      dsimp only at hk
      omega
  | succ f ihf =>
    intro pos r0 k hr0 hk h409 hmin
    by_cases hread : min env.chunkSize (env.fileLen - pos) = 0
    · rw [uploadLoop_stuck env (f + 1) pos r0 hread] at hk
      dsimp only at hk
      omega
    · rw [uploadLoop_succ env f pos r0 hread] at hk ⊢
      by_cases h4 : (env.responses r0).status = 409
      · rw [if_pos h4] at hk ⊢
        dsimp only at hk
        have hk0 : k = r0 := by omega
        subst hk0
        exact ⟨rfl, rfl⟩
      · rw [if_neg h4] at hk ⊢
        have hne : r0 ≠ k := by
          intro hh
          exact h4 (hh ▸ h409)
        by_cases h44 : (env.responses r0).status = 404
        · rw [if_pos h44] at hk
          dsimp only at hk
          omega
        · rw [if_neg h44] at hk ⊢
          by_cases h204 : (env.responses r0).status ≠ 204
          · rw [if_pos h204] at hk
            dsimp only at hk
            omega
          · rw [if_neg h204] at hk ⊢
            rcases hoff : (env.responses r0).uploadOffset with _ | o
            · rw [hoff] at hk
              dsimp only at hk
              omega
            · rcases o with _ | prog
              · rw [hoff] at hk
                dsimp only at hk
                omega
              · rw [hoff] at hk
                dsimp only at hk
                by_cases hfin : env.fileLen ≤ prog
                · rw [if_pos hfin] at hk
                  dsimp only at hk
                  omega
                · rw [if_neg hfin] at hk
                  dsimp only
                  rw [if_neg hfin]
                  exact ihf (pos + min env.chunkSize (env.fileLen - pos)) (r0 + 1) k
                    (by omega) hk h409 (fun j hj1 hj2 => hmin j (by omega) hj2)

/-- C8: if any PATCH request that `upload_with_chunk_size` actually sends is
answered with status 409 (and it is the first such), the call returns
`WrongUploadOffsetError` and the total number of requests sent is exactly that
request's index plus one — no further chunk is attempted. -/
theorem c8_conflict_aborts (env : UploadEnv) (k : Nat)
    (hsent : k < (upload_with_chunk_size env).2)
    (h409 : (env.responses k).status = 409)
    (hfirst : ∀ j, j < k → (env.responses j).status ≠ 409) :
    (upload_with_chunk_size env).1 = Except.error TusError.wrongUploadOffsetError ∧
    (upload_with_chunk_size env).2 = k + 1 := by
  unfold upload_with_chunk_size at hsent ⊢
  rcases henv : env.totalSize with _ | total
  · rw [henv] at hsent
    dsimp only at hsent ⊢
    exact uploadLoop_first409 env (env.fileLen + 1) env.bytesUploaded 0 k (by omega)
      hsent h409 (fun j _ hj => hfirst j hj)
  · rw [henv] at hsent
    dsimp only at hsent ⊢
    by_cases hne : env.fileLen ≠ total
    · rw [if_pos hne] at hsent
      dsimp only at hsent
      omega
    · rw [if_neg hne] at hsent ⊢
      exact uploadLoop_first409 env (env.fileLen + 1) env.bytesUploaded 0 k (by omega)
        hsent h409 (fun j _ hj => hfirst j hj)

/-- C8 witness: a 10-byte file whose very first PATCH is answered 409. -/
theorem c8_conflict_aborts_witness :
    (upload_with_chunk_size ⟨5, 10, 0, none, fun _ => ⟨409, none⟩⟩).1
      = Except.error TusError.wrongUploadOffsetError ∧
    (upload_with_chunk_size ⟨5, 10, 0, none, fun _ => ⟨409, none⟩⟩).2 = 0 + 1 :=
  c8_conflict_aborts ⟨5, 10, 0, none, fun _ => ⟨409, none⟩⟩ 0 (by decide) rfl
    (fun j hj => absurd hj (Nat.not_lt_zero j))

/-- C10: when `get_info` reports at least the whole file as uploaded and the
size check passes, the reader is seeked at or past end-of-file, the first read
returns zero bytes, and the call fails with `FileReadError` without sending
any request — it does not succeed. -/
theorem c10_completed_upload_fileReadError (env : UploadEnv)
    (hoff : env.fileLen ≤ env.bytesUploaded)
    (hsize : env.totalSize = none ∨ env.totalSize = some env.fileLen) :
    upload_with_chunk_size env = (Except.error TusError.fileReadError, 0) := by
  unfold upload_with_chunk_size
  have hstuck : min env.chunkSize (env.fileLen - env.bytesUploaded) = 0 := by omega
  rcases hsize with h | h
  · rw [h]
    exact uploadLoop_stuck env (env.fileLen + 1) env.bytesUploaded 0 hstuck
  · rw [h]
    dsimp only
    rw [if_neg (by simp : ¬env.fileLen ≠ env.fileLen)]
    exact uploadLoop_stuck env (env.fileLen + 1) env.bytesUploaded 0 hstuck

/-- C10 witness: a 3-byte file already fully uploaded (offset 3, total size
3): the call returns `FileReadError` with zero requests sent. -/
theorem c10_completed_upload_fileReadError_witness :
    upload_with_chunk_size ⟨5, 3, 3, some 3, fun _ => ⟨204, some (some 99)⟩⟩
      = (Except.error TusError.fileReadError, 0) :=
  c10_completed_upload_fileReadError ⟨5, 3, 3, some 3, fun _ => ⟨204, some (some 99)⟩⟩
    (by decide) (Or.inr rfl)

/-! ## Lemmas: the progress tracker -/

theorem mapGet_mapSet_self : ∀ (m : ProgressMap) (k : Nat) (v : List (Option Int)),
    mapGet (mapSet m k v) k = some v
  | [], k, v => by
    show (if k = k then some v else mapGet [] k) = some v
    rw [if_pos rfl]
  | (k0, v0) :: rest, k, v => by
    by_cases h : k0 = k
    · show mapGet (if k0 = k then (k, v) :: rest else (k0, v0) :: mapSet rest k v) k = some v
      rw [if_pos h]
      show (if k = k then some v else mapGet rest k) = some v
      rw [if_pos rfl]
    · show mapGet (if k0 = k then (k, v) :: rest else (k0, v0) :: mapSet rest k v) k = some v
      rw [if_neg h]
      show (if k0 = k then some v0 else mapGet (mapSet rest k v) k) = some v
      rw [if_neg h]
      exact mapGet_mapSet_self rest k v

/-- C9: the overall progress is the (i32-truncating) mean of exactly the
reported per-format entries — unset entries count in neither the sum nor the
divisor; an unknown task, or a task with no reported entry, has overall
progress 0; and a fresh task that reports only formats 0 and 2 with 40 and 60
has overall progress 50, not 33. -/
theorem c9_progress_mean (m : ProgressMap) (t : Nat) (l : List (Option Int))
    (hsome : mapGet m t = some l) (hpos : 0 < (l.filterMap id).length)
    (m0 : ProgressMap) (t0 : Nat) (hnone : mapGet m0 t0 = none)
    (m1 : ProgressMap) (t1 : Nat) (l1 : List (Option Int))
    (hsome1 : mapGet m1 t1 = some l1) (hzero : (l1.filterMap id).length = 0) :
    calculate_overall_progress m t
      = Int.tdiv (l.filterMap id).sum ((l.filterMap id).length : Int) ∧
    calculate_overall_progress m0 t0 = 0 ∧
    calculate_overall_progress m1 t1 = 0 ∧
    calculate_overall_progress
      (update_progress (update_progress m0 t0 0 40) t0 2 60) t0 = 50 := by
  refine ⟨?_, ?_, ?_, ?_⟩
  · unfold calculate_overall_progress
    rw [hsome]
    dsimp only
    rw [if_pos hpos]
  · unfold calculate_overall_progress
    rw [hnone]
  · unfold calculate_overall_progress
    rw [hsome1]
    dsimp only
    rw [if_neg (by omega)]
  · have h1 : update_progress m0 t0 0 40 = mapSet m0 t0 [some 40] := by
      unfold update_progress
      rw [hnone]
      rfl
    have h2 : update_progress (mapSet m0 t0 [some 40]) t0 2 60
        = mapSet (mapSet m0 t0 [some 40]) t0 [some 40, none, some 60] := by
      unfold update_progress
      rw [mapGet_mapSet_self]
      rfl
    rw [h1, h2]
    unfold calculate_overall_progress
    rw [mapGet_mapSet_self]
    decide

/-- C9 witness. -/
theorem c9_progress_mean_witness :
    calculate_overall_progress [(7, [some 40, none, some 60])] 7 = 50 ∧
    calculate_overall_progress [] 3 = 0 ∧
    calculate_overall_progress [(9, [none])] 9 = 0 ∧
    calculate_overall_progress (update_progress (update_progress [] 3 0 40) 3 2 60) 3
      = 50 := by
  have h := c9_progress_mean [(7, [some 40, none, some 60])] 7 [some 40, none, some 60]
    (by decide) (by decide) [] 3 rfl [(9, [none])] 9 [none] (by decide) (by decide)
  exact ⟨h.1.trans (by decide), h.2.1, h.2.2.1, h.2.2.2⟩

end Transcode
